/-
Verification of the icon-archaeology batch extractor
(`scripts/extract_batch.py`) via a shallow embedding in Lean 4.

Bytes read from resource buffers are modelled as `Fin 256`; byte buffers
as `List Byte`.  Python `while` loops are embedded as structural
recursion on an explicit fuel argument, with a fuel-irrelevance lemma
showing the fuel chosen at each call site is large enough that the
function computes the loop's true fixpoint.
-/
import Mathlib

set_option maxRecDepth 10000

namespace IconArchaeology

abbrev Byte := Fin 256

abbrev RGB := Nat × Nat × Nat

abbrev RGBA := Nat × Nat × Nat × Nat

/-- Row-major 32x32 plane of 8-bit alpha values (PIL mode `L` image). -/
abbrev MaskPlane := List (List Nat)

/-- The descending channel ramp shared by the red/green/blue ramps of the
palette (source: the literal list at `extract_batch.py:58`). -/
def rampVals : List Nat := [0xFF, 0xEE, 0xDD, 0xCC, 0xBB, 0xAA, 0x99, 0x88, 0x77, 0x66]

/-- The gray-ramp values (source: the literal list at `extract_batch.py:70`). -/
def grayVals : List Nat := [0xEE, 0xDD, 0xCC, 0xBB, 0xAA, 0x99, 0x88, 0x77, 0x66, 0x00]

/-- The Mac OS 8-bit system palette, built exactly as the module-level
loops of `extract_batch.py:45-71`: a 6x6x6 cube (red-major), then red,
green, blue ramps, then the gray ramp. -/
def PALETTE : List RGB :=
  ((List.range 6).flatMap (fun r =>
    (List.range 6).flatMap (fun g =>
      (List.range 6).map (fun b =>
        (0xFF - r * 0x33, 0xFF - g * 0x33, 0xFF - b * 0x33)))))
  ++ rampVals.map (fun v => (v, 0x00, 0x00))
  ++ rampVals.map (fun v => (0x00, v, 0x00))
  ++ rampVals.map (fun v => (0x00, 0x00, v))
  ++ grayVals.map (fun v => (v, v, v))

/-- C7: The palette has exactly 256 entries; entries 0-215 form the 6x6x6
cube enumerated red-major/green-mid/blue-minor with channel value
255 - 51*k at cube coordinate k; entries 216-225 / 226-235 / 236-245
apply the descending ramp [255,...,102] to the red / green / blue channel
with the other channels zero; entries 246-255 apply [238,...,102,0]
equally to all channels, the last entry being pure black. -/
theorem palette_layout :
    PALETTE.length = 256 ∧
    (∀ r g b : Fin 6,
      PALETTE.getD (36 * r.val + 6 * g.val + b.val) (0, 0, 0) =
        (255 - 51 * r.val, 255 - 51 * g.val, 255 - 51 * b.val)) ∧
    (∀ j : Fin 10,
      PALETTE.getD (216 + j.val) (0, 0, 0) =
        ([255, 238, 221, 204, 187, 170, 153, 136, 119, 102].getD j.val 0, 0, 0)) ∧
    (∀ j : Fin 10,
      PALETTE.getD (226 + j.val) (0, 0, 0) =
        (0, [255, 238, 221, 204, 187, 170, 153, 136, 119, 102].getD j.val 0, 0)) ∧
    (∀ j : Fin 10,
      PALETTE.getD (236 + j.val) (0, 0, 0) =
        (0, 0, [255, 238, 221, 204, 187, 170, 153, 136, 119, 102].getD j.val 0)) ∧
    (∀ j : Fin 10,
      PALETTE.getD (246 + j.val) (0, 0, 0) =
        (let v := [238, 221, 204, 187, 170, 153, 136, 119, 102, 0].getD j.val 0
         (v, v, v))) ∧
    PALETTE.getD 255 (1, 1, 1) = (0, 0, 0) := by
  refine ⟨by decide, by decide, by decide, by decide, by decide, by decide, by decide⟩

/-! ## Mask and color-raster decoders -/

/-- A decoded 32x32 icon raster: RGB rows when no mask was supplied,
RGBA rows otherwise (mirrors the two `Image.new` branches of the
source). -/
inductive IconImg where
  | rgb (rows : List (List RGB))
  | rgba (rows : List (List RGBA))
deriving DecidableEq

/-- Python's truthiness test `byte & (1 << bit) != 0` — "bit `k` of `b`
is set" — written with division and modulus (equivalent for a single-bit
mask) so that it evaluates inside the kernel. -/
def bitSet (b k : Nat) : Bool := b / 2 ^ k % 2 = 1

/-- `extract_mask_from_icn` (`extract_batch.py:74-93`): reject buffers
shorter than 256 bytes; otherwise take bytes 128..255 as the mask plane
and decode bit `7 - x % 8` of mask byte `y * 4 + x / 8` into alpha 255/0. -/
def extract_mask_from_icn (icn_data : List Byte) : Option MaskPlane :=
  if icn_data.length < 256 then none
  else
    let mask_data := (icn_data.drop 128).take 128
    some ((List.range 32).map (fun y => (List.range 32).map (fun x =>
      let byteIdx := y * 4 + x / 8
      let bitIdx := 7 - x % 8
      if bitSet (mask_data.getD byteIdx 0).val bitIdx then 255 else 0)))

/-- `extract_icl8` (`extract_batch.py:96-129`): reject buffers shorter
than 1024 bytes; with a mask produce RGBA rows taking per-pixel alpha
from the mask plane, without a mask produce RGB rows; the color of pixel
`(x, y)` is the palette entry indexed by buffer byte `y * 32 + x`. -/
def extract_icl8 (icl8_data : List Byte) (mask : Option MaskPlane) : Option IconImg :=
  if icl8_data.length < 1024 then none
  else
    match mask with
    | some m =>
        some (IconImg.rgba ((List.range 32).map (fun y => (List.range 32).map (fun x =>
          let idx := (icl8_data.getD (y * 32 + x) 0).val
          let p := PALETTE.getD idx (0, 0, 0)
          (p.1, p.2.1, p.2.2, (m.getD y []).getD x 0)))))
    | none =>
        some (IconImg.rgb ((List.range 32).map (fun y => (List.range 32).map (fun x =>
          PALETTE.getD ((icl8_data.getD (y * 32 + x) 0).val) (0, 0, 0)))))

/-! ## Name sanitization (`sanitize_name`, `extract_batch.py:132-141`) -/

/-- The per-character keep test of the comprehension at line 135:
alphanumeric (Python `str.isalnum`, modelled by `Char.isAlphanum`) or
one of the allow-list `-`, `_`, space. -/
def keepChar (c : Char) : Bool :=
  c.isAlphanum || c = '-' || c = '_' || c = ' '

/-- The character-mapping pass: keep allowed characters, replace every
other character by a dash. -/
def mapPass (l : List Char) : List Char :=
  l.map (fun c => if keepChar c then c else '-')

/-- One Python `str.replace (aa, a)` call: replace non-overlapping
occurrences of the doubled character left to right. -/
def replacePairs (a : Char) : List Char → List Char
  | [] => []
  | [x] => [x]
  | x :: y :: rest =>
      if x = a ∧ y = a then a :: replacePairs a rest
      else x :: replacePairs a (y :: rest)

/-- The Python `in` test for the doubled character (`aa in safe`). -/
def hasPair (a : Char) : List Char → Bool
  | [] => false
  | [_] => false
  | x :: y :: rest => (x = a && y = a) || hasPair a (y :: rest)

/-- The collapse loop (`while aa in safe: safe = safe.replace(aa, a)`),
fuel-structural; the fuel chosen by `sanitizeList` always suffices:
each iteration strictly shrinks the list (`replacePairs_length_lt`),
and `collapseF_post` shows the loop exits with no doubled character. -/
def collapseF (a : Char) (fuel : Nat) (l : List Char) : List Char :=
  match fuel with
  | 0 => l
  | fuel + 1 => if hasPair a l then collapseF a fuel (replacePairs a l) else l

/-- The strip set of `safe.strip('- ')`. -/
def stripChar (c : Char) : Bool := c = '-' || c = ' '

/-- Python `str.strip('- ')`: drop the allow-listed characters from both
ends. -/
def stripEnds (l : List Char) : List Char :=
  ((l.dropWhile stripChar).reverse.dropWhile stripChar).reverse

/-- `sanitize_name` on the character list: map, collapse dashes,
collapse spaces, strip the ends. -/
def sanitizeList (l : List Char) : List Char :=
  let safe := mapPass l
  let safe1 := collapseF '-' safe.length safe
  let safe2 := collapseF ' ' safe1.length safe1
  stripEnds safe2

/-- `sanitize_name` (`extract_batch.py:132-141`). -/
def sanitize_name (s : String) : String :=
  String.mk (sanitizeList s.data)

/-! ## Container parser (`parse_icns_container`, `extract_batch.py:144-167`) -/

/-- The four magic bytes `icns`. -/
def icnsMagic : List Byte := [0x69, 0x63, 0x6E, 0x73]

/-- Element type `icl8` as bytes. -/
def icl8Type : List Byte := [0x69, 0x63, 0x6C, 0x38]

/-- Element type `l8mk` as bytes. -/
def l8mkType : List Byte := [0x6C, 0x38, 0x6D, 0x6B]

/-- Element type `ICN#` as bytes. -/
def icnHashType : List Byte := [0x49, 0x43, 0x4E, 0x23]

/-- Big-endian 32-bit read (`struct.unpack` with format `>I`) of the
first four bytes of a list; the parser only calls it where at least four
bytes remain. -/
def be32 : List Byte → Nat
  | b0 :: b1 :: b2 :: b3 :: _ =>
      ((b0.val * 256 + b1.val) * 256 + b2.val) * 256 + b3.val
  | _ => 0

/-- The declared element length at `pos`: `struct.unpack` of bytes
`pos+4 .. pos+8`. -/
def elemLen (data : List Byte) (pos : Nat) : Nat := be32 (data.drop (pos + 4))

/-- The element type code at `pos`: bytes `pos .. pos+4`. -/
def elemType (data : List Byte) (pos : Nat) : List Byte := (data.drop pos).take 4

/-- The element payload at `pos`: bytes `pos+8 .. pos+elen`. -/
def elemPayload (data : List Byte) (pos : Nat) : List Byte :=
  (data.drop (pos + 8)).take (elemLen data pos - 8)

/-- A parsed container: Python's `elements` dict.  Each loop iteration
performs `elements[etype] = payload`; dict assignment overwrites, so the
dict is modelled as an association list onto which each iteration
prepends its pair, and `dictGet` (Python `dict.get`) takes the first
match, i.e. the most recent assignment. -/
abbrev Elements := List (List Byte × List Byte)

/-- Python `elements.get(t)`: the most recent value assigned to `t`
(first match in the prepend-ordered association list). -/
def dictGet (t : List Byte) : Elements → Option (List Byte)
  | [] => none
  | e :: rest => if e.1 = t then some e.2 else dictGet t rest

/-- The parse loop of `parse_icns_container` (lines 159-165),
fuel-structural: while `pos < len - 8`, read the header at `pos`; stop
on a declared length below 8 or beyond the remaining buffer; otherwise
record the element and advance by its length.  Each iteration advances
`pos` by at least 8, so `data.length` iterations always suffice
(`parseElemsF_congr` shows any such fuel computes the same result). -/
def parseLoopF (data : List Byte) : Nat → Nat → Elements → Elements
  | 0, _, elements => elements
  | fuel + 1, pos, elements =>
      if pos < data.length - 8 then
        if elemLen data pos < 8 ∨ data.length - pos < elemLen data pos then elements
        else parseLoopF data fuel (pos + elemLen data pos)
               ((elemType data pos, elemPayload data pos) :: elements)
      else elements

/-- The elements of the container in parse order (the order in which the
loop records them), fuel-structural like `parseLoopF`. -/
def parseElemsF (data : List Byte) : Nat → Nat → Elements
  | 0, _ => []
  | fuel + 1, pos =>
      if pos < data.length - 8 then
        if elemLen data pos < 8 ∨ data.length - pos < elemLen data pos then []
        else (elemType data pos, elemPayload data pos) :: parseElemsF data fuel (pos + elemLen data pos)
      else []

/-- The starting position: 8 when the buffer opens with an 8-byte
`icns` magic header, else 0 (lines 156-157). -/
def startPos (data : List Byte) : Nat :=
  if 8 ≤ data.length ∧ data.take 4 = icnsMagic then 8 else 0

/-- `parse_icns_container` (`extract_batch.py:144-167`). -/
def parse_icns_container (data : List Byte) : Elements :=
  parseLoopF data data.length (startPos data) []

/-- The container's elements in parse order. -/
def parseElems (data : List Byte) : Elements :=
  parseElemsF data data.length (startPos data)

/-! ## `extract_from_icns` (`extract_batch.py:170-196`) -/

/-- The 8-bit `l8mk` alpha plane: one byte per pixel, row-major, used
directly (lines 186-190). -/
def l8mkPlane (m : List Byte) : MaskPlane :=
  (List.range 32).map (fun y => (List.range 32).map (fun x =>
    (m.getD (y * 32 + x) 0).val))

/-- `extract_from_icns`: parse the container, require an `icl8` payload
of at least 1024 bytes, choose the mask preferring an `l8mk` payload of
at least 1024 bytes over an `ICN#` payload (Python truthiness of the
empty byte string modelled by the emptiness tests), then decode. -/
def extract_from_icns (icns_data : List Byte) : Option IconImg :=
  let elements := parse_icns_container icns_data
  match dictGet icl8Type elements with
  | none => none
  | some icl8_data =>
      if icl8_data.length < 1024 then none
      else
        let icnMask : Option MaskPlane :=
          match dictGet icnHashType elements with
          | some icn => if icn = [] then none else extract_mask_from_icn icn
          | none => none
        let mask : Option MaskPlane :=
          match dictGet l8mkType elements with
          | some l8 => if 1024 ≤ l8.length then some (l8mkPlane l8) else icnMask
          | none => icnMask
        extract_icl8 icl8_data mask

/-! ## Naming resolver (`extract_all`, `extract_batch.py:312-321` and 349-358)

The output directory is modelled as the list of filenames already
present; `dest.exists()` is membership in that list. -/

/-- The base output filename (f-string at lines 312/349). -/
def baseName (collection icon : String) : String :=
  collection ++ "--" ++ icon ++ ".png"

/-- The suffixed output filename (f-string at lines 319/356); `str i` is
`Nat.repr`. -/
def suffixName (collection icon : String) (i : Nat) : String :=
  collection ++ "--" ++ icon ++ "-" ++ Nat.repr i ++ ".png"

/-- The `while dest.exists()` search (lines 317-321), fuel-structural:
try suffix `i`, move to `i + 1` while taken.  The fuel chosen by
`resolve_dest` always suffices because at most `existing.length`
suffixed names can be taken (`resolve_dest_spec`). -/
def suffixSearch (existing : List String) (collection icon : String) : Nat → Nat → String
  | i, 0 => suffixName collection icon i
  | i, fuel + 1 =>
      if suffixName collection icon i ∈ existing then
        suffixSearch existing collection icon (i + 1) fuel
      else suffixName collection icon i

/-- The destination-name resolution of `extract_all`: take the base
name; if it exists, search suffixes from 1 upward. -/
def resolve_dest (existing : List String) (collection icon : String) : String :=
  if baseName collection icon ∈ existing then
    suffixSearch existing collection icon 1 (existing.length + 1)
  else baseName collection icon

/-! ## Collection traversal (`extract_all`, `extract_batch.py:295-358`) -/

/-- A filesystem entry seen by `rglob`: `path` stands for the resolved
path (`Path.resolve`), `name` is the entry's base name, `hasRsrc` is
`os.path.exists` on the `..namedfork/rsrc` stream. -/
structure Entry where
  path : Nat
  name : String
  isDir : Bool
  hasRsrc : Bool
deriving DecidableEq

/-- The marker filename searched by Pass A's `rglob`. -/
def markerFileName : String := "Icon\r"

/-- Pass A's candidates: every entry named `Icon\r` (line 300). -/
def passA_items (col : List Entry) : List Entry :=
  col.filter (fun e => e.name == markerFileName)

/-- The consumed-path set after Pass A: every Pass A candidate's
resolved path is added before any other check (line 301). -/
def consumedPaths (col : List Entry) : List Nat :=
  (passA_items col).map (fun e => e.path)

/-- Pass B's candidates (lines 333-339): every entry that is not a
directory, not hidden, and whose resolved path was not consumed by
Pass A. -/
def passB_items (col : List Entry) : List Entry :=
  col.filter (fun e =>
    !e.isDir && !(e.name.startsWith ".") && !((consumedPaths col).contains e.path))

/-- Python `str.lower`, modelled as the per-character lowercase map
(`String.toLower` is this same map, but its position-based recursion
blocks kernel evaluation). -/
def lowerName (s : String) : String := String.mk (s.data.map Char.toLower)

/-- Pass A's icon-name derivation (lines 308-310): sanitize the parent
folder name; fall back to the collection name when empty or a generic
placeholder. -/
def passA_iconName (collection_name parent_name : String) : String :=
  let icon_name := sanitize_name parent_name
  if icon_name = "" ∨ lowerName icon_name = "icon" ∨ lowerName icon_name = "icons" then
    collection_name
  else icon_name

/-- Pass B's icon-name derivation (lines 345-347): sanitize the item's
own name; fall back to the literal placeholder when empty.  The
collection name is not consulted. -/
def passB_iconName (item_name : String) : String :=
  let icon_name := sanitize_name item_name
  if icon_name = "" then "unnamed" else icon_name

/-! ## Parser lemmas -/

/-- The payload of the last element in parse order whose type code is
`t`: later elements take priority over earlier ones. -/
def lookupLast (t : List Byte) : Elements → Option (List Byte)
  | [] => none
  | e :: rest =>
      match lookupLast t rest with
      | some v => some v
      | none => if e.1 = t then some e.2 else none

theorem dictGet_append (t : List Byte) (l1 l2 : Elements) :
    dictGet t (l1 ++ l2) =
      match dictGet t l1 with
      | some v => some v
      | none => dictGet t l2 := by
  induction l1 with
  | nil => simp [dictGet]
  | cons e rest ih => by_cases h : e.1 = t <;> simp [dictGet, h, ih]

theorem dictGet_reverse (t : List Byte) (l : Elements) :
    dictGet t l.reverse = lookupLast t l := by
  induction l with
  | nil => rfl
  | cons e rest ih =>
      rw [List.reverse_cons, dictGet_append, ih]
      cases h : lookupLast t rest <;> simp [lookupLast, dictGet, h]

theorem parseLoopF_eq_reverse (data : List Byte) :
    ∀ (fuel pos : Nat) (acc : Elements),
      parseLoopF data fuel pos acc = (parseElemsF data fuel pos).reverse ++ acc := by
  intro fuel
  induction fuel with
  | zero => intro pos acc; rfl
  | succ fuel ih =>
      intro pos acc
      simp only [parseLoopF, parseElemsF]
      by_cases h1 : pos < data.length - 8
      · simp only [h1, if_true]
        by_cases h2 : elemLen data pos < 8 ∨ data.length - pos < elemLen data pos
        · simp [h2]
        · simp [h2, ih, List.reverse_cons, List.append_assoc]
      · simp [h1]

theorem parseElemsF_congr (data : List Byte) :
    ∀ (f1 f2 pos : Nat), data.length - pos ≤ 8 * f1 + 8 → data.length - pos ≤ 8 * f2 + 8 →
      parseElemsF data f1 pos = parseElemsF data f2 pos := by
  intro f1
  induction f1 with
  | zero =>
      intro f2 pos h1 _
      cases f2 with
      | zero => rfl
      | succ f2 =>
          have : ¬ pos < data.length - 8 := by omega
          simp [parseElemsF, this]
  | succ f1 ih =>
      intro f2 pos h1 h2
      cases f2 with
      | zero =>
          have : ¬ pos < data.length - 8 := by omega
          simp [parseElemsF, this]
      | succ f2 =>
          simp only [parseElemsF]
          by_cases hc : pos < data.length - 8
          · simp only [hc, if_true]
            by_cases hb : elemLen data pos < 8 ∨ data.length - pos < elemLen data pos
            · simp [hb]
            · have he : 8 ≤ elemLen data pos ∧ elemLen data pos ≤ data.length - pos := by
                push_neg at hb; omega
              simp only [hb, if_false]
              have := ih f2 (pos + elemLen data pos) (by omega) (by omega)
              rw [this]
          · simp [hc]

/-- `parseElemsF` with the canonical fuel, from an arbitrary position:
the in-order element list the loop would parse starting at `pos`. -/
def parseElemsAt (data : List Byte) (pos : Nat) : Elements :=
  parseElemsF data data.length pos

theorem parseElemsAt_eq (data : List Byte) (fuel pos : Nat)
    (h : data.length - pos ≤ 8 * fuel + 8) :
    parseElemsAt data pos = parseElemsF data fuel pos :=
  parseElemsF_congr data data.length fuel pos (by omega) h

/-- One unrolling of the in-order parse from an arbitrary position:
this is the loop body of `parse_icns_container` with its three exits. -/
theorem parseElemsAt_unfold (data : List Byte) (pos : Nat) :
    parseElemsAt data pos =
      if pos < data.length - 8 then
        if elemLen data pos < 8 ∨ data.length - pos < elemLen data pos then []
        else (elemType data pos, elemPayload data pos) ::
          parseElemsAt data (pos + elemLen data pos)
      else [] := by
  by_cases h1 : pos < data.length - 8
  · obtain ⟨k, hk⟩ : ∃ k, data.length = k + 1 := ⟨data.length - 1, by omega⟩
    have L1 : parseElemsAt data pos = parseElemsF data (k + 1) pos :=
      parseElemsAt_eq data (k + 1) pos (by omega)
    by_cases h2 : elemLen data pos < 8 ∨ data.length - pos < elemLen data pos
    · rw [if_pos h1, if_pos h2, L1]
      simp only [parseElemsF, if_pos h1, if_pos h2]
    · rw [if_pos h1, if_neg h2, L1]
      simp only [parseElemsF, if_pos h1, if_neg h2]
      congr 1
      refine (parseElemsAt_eq data k (pos + elemLen data pos) ?_).symm
      push_neg at h2
      omega
  · rw [if_neg h1, parseElemsAt_eq data 0 pos (by omega)]
    rfl

theorem parse_eq_reverse (data : List Byte) :
    parse_icns_container data = (parseElemsAt data (startPos data)).reverse := by
  unfold parse_icns_container parseElemsAt
  rw [parseLoopF_eq_reverse]
  simp

theorem parseElems_eq_at (data : List Byte) :
    parseElems data = parseElemsAt data (startPos data) := rfl

/-! ## Claim C1 -/

/-- C1: a marker file discovered by Pass A has its resolved path added
to the consumed-path set and is therefore never among Pass B's
candidates, so it is extracted at most once, by the structured pass. -/
theorem passA_consumed_excluded (col : List Entry) (e : Entry)
    (h : e ∈ passA_items col) :
    e.path ∈ consumedPaths col ∧ e ∉ passB_items col := by
  constructor
  · exact List.mem_map.2 ⟨e, h, rfl⟩
  · intro hB
    have hmem : e.path ∈ consumedPaths col := List.mem_map.2 ⟨e, h, rfl⟩
    have hc := (List.mem_filter.1 hB).2
    simp only [Bool.and_eq_true, Bool.not_eq_true'] at hc
    have hcont : (consumedPaths col).contains e.path = true := by
      simpa [List.contains] using List.elem_eq_true_of_mem hmem
    rw [hc.2] at hcont
    exact Bool.false_ne_true hcont

/-- Concrete instance for `passA_consumed_excluded`: a collection whose
marker file also matches the flat scan. -/
def colW : List Entry :=
  [⟨0, markerFileName, false, true⟩, ⟨1, "Gear", false, true⟩]

theorem passA_consumed_excluded_witness :
    (⟨0, markerFileName, false, true⟩ : Entry).path ∈ consumedPaths colW ∧
    (⟨0, markerFileName, false, true⟩ : Entry) ∉ passB_items colW :=
  passA_consumed_excluded colW _ (by decide)

/-! ## Claim C3 -/

/-- C3 (amended): the mapping built by the container parser associates a
type code with the payload of the LAST validly-parsed element bearing
it, because Python dict assignment overwrites earlier values. -/
theorem container_last_occurrence_wins (data t : List Byte) :
    dictGet t (parse_icns_container data) = lookupLast t (parseElems data) := by
  rw [parse_eq_reverse, dictGet_reverse, parseElems_eq_at]

/-- A container holding two valid elements with the same type code
`AAAA` and distinct one-byte payloads. -/
def dupBuf : List Byte :=
  [65, 65, 65, 65, 0, 0, 0, 9, 1,
   65, 65, 65, 65, 0, 0, 0, 9, 2]

/-- C3 counterexample: both elements of `dupBuf` parse (in order, with
payloads `[1]` then `[2]`), yet the returned mapping associates `AAAA`
with the payload of the SECOND element — the claim's "first occurrence
wins" is false on the code. -/
theorem container_first_wins_refuted :
    parseElems dupBuf = [([65, 65, 65, 65], [1]), ([65, 65, 65, 65], [2])] ∧
    dictGet [65, 65, 65, 65] (parse_icns_container dupBuf) = some [2] ∧
    ([2] : List Byte) ≠ [1] := by decide

/-! ## Claim C4 -/

/-- C4 (amended): the parse loop halts exactly when fewer than 9 bytes
remain (one more byte than an 8-byte header — the source condition is
`pos < len - 8`), or when the declared element length is below 8 or
exceeds the remaining buffer; on a halt it returns exactly the elements
parsed so far (the loop is a total function, so no exception, and the
offending element contributes no partial payload). -/
theorem container_halt_conditions (data : List Byte) (pos : Nat) :
    (data.length ≤ pos + 8 → parseElemsAt data pos = []) ∧
    (elemLen data pos < 8 ∨ data.length - pos < elemLen data pos →
      parseElemsAt data pos = []) ∧
    (pos + 8 < data.length → 8 ≤ elemLen data pos →
      elemLen data pos ≤ data.length - pos →
      parseElemsAt data pos =
        (elemType data pos, elemPayload data pos) ::
          parseElemsAt data (pos + elemLen data pos)) ∧
    parse_icns_container data = (parseElemsAt data (startPos data)).reverse := by
  refine ⟨?_, ?_, ?_, parse_eq_reverse data⟩
  · intro h
    have hn : ¬ pos < data.length - 8 := by omega
    rw [parseElemsAt_unfold, if_neg hn]
  · intro h
    rw [parseElemsAt_unfold]
    by_cases hc : pos < data.length - 8
    · rw [if_pos hc, if_pos h]
    · rw [if_neg hc]
  · intro h1 h2 h3
    have hc : pos < data.length - 8 := by omega
    have hb : ¬ (elemLen data pos < 8 ∨ data.length - pos < elemLen data pos) := by
      push_neg
      omega
    rw [parseElemsAt_unfold, if_pos hc, if_neg hb]

/-- A buffer that is exactly one valid header-only element: the declared
length 8 equals the remaining 8 bytes, so per the original claim the
element should be parsed, but the loop condition `pos < len - 8`
already fails and nothing is parsed. -/
def wholeElemBuf : List Byte := [65, 65, 65, 65, 0, 0, 0, 8]

/-- C4 counterexample: 8 remaining bytes do hold an 8-byte header whose
declared length (8) is neither below 8 nor beyond the remaining buffer,
yet the parser halts with no elements — refuting "halts exactly when
the remaining bytes cannot hold another 8-byte header, or ...". -/
theorem container_halt_exactness_refuted :
    wholeElemBuf.length = 8 ∧ elemLen wholeElemBuf 0 = 8 ∧
    parse_icns_container wholeElemBuf = [] := by decide

/-- A buffer whose first element is valid and whose trailing bytes are
an element with a truncated declared length. -/
def witBuf : List Byte :=
  [66, 66, 66, 66, 0, 0, 0, 9, 5, 67, 67, 67, 67, 0, 0, 0, 99]

theorem container_halt_conditions_witness :
    parseElemsAt witBuf 0 =
      (elemType witBuf 0, elemPayload witBuf 0) ::
        parseElemsAt witBuf (0 + elemLen witBuf 0) ∧
    parseElemsAt witBuf 9 = [] :=
  ⟨(container_halt_conditions witBuf 0).2.2.1 (by decide) (by decide) (by decide),
   (container_halt_conditions witBuf 9).1 (by decide)⟩

/-! ## Decoder lemmas and claims C5, C6, C8 -/

theorem getD_range_map {α : Type} (f : Nat → α) (d : α) (n i : Nat) (h : i < n) :
    ((List.range n).map f).getD i d = f i := by
  rw [List.getD_eq_getElem?_getD, List.getElem?_map, List.getElem?_range h]
  rfl

theorem getD_replicate {α : Type} (a d : α) (n i : Nat) (h : i < n) :
    (List.replicate n a).getD i d = a := by
  rw [List.getD_eq_getElem?_getD, List.getElem?_replicate_of_lt h]
  rfl

theorem getD_take {α : Type} (l : List α) (d : α) (k i : Nat) (h : i < k) :
    (l.take k).getD i d = l.getD i d := by
  rw [List.getD_eq_getElem?_getD, List.getD_eq_getElem?_getD, List.getElem?_take_of_lt h]

/-- Alpha value of an optional mask plane at `(x, y)` (0 outside). -/
def planeAt (o : Option MaskPlane) (x y : Nat) : Nat :=
  ((o.getD []).getD y []).getD x 0

/-- Pixel of an RGBA raster at `(x, y)`. -/
def rgbaAt (o : Option IconImg) (x y : Nat) : RGBA :=
  match o with
  | some (IconImg.rgba rows) => (rows.getD y []).getD x (0, 0, 0, 0)
  | _ => (0, 0, 0, 0)

/-- Pixel of an RGB raster at `(x, y)`. -/
def rgbAt (o : Option IconImg) (x y : Nat) : RGB :=
  match o with
  | some (IconImg.rgb rows) => (rows.getD y []).getD x (0, 0, 0)
  | _ => (0, 0, 0)

/-- Whether an extraction produced an RGBA raster. -/
def isRGBA (o : Option IconImg) : Bool :=
  match o with
  | some (IconImg.rgba _) => true
  | _ => false

/-- Whether an extraction produced an RGB raster. -/
def isRGB (o : Option IconImg) : Bool :=
  match o with
  | some (IconImg.rgb _) => true
  | _ => false

/-- A 256-byte ICN# buffer whose mask region has only the highest bit
of its byte 0 set. -/
def highBitBuf : List Byte :=
  List.replicate 128 0 ++ 0x80 :: List.replicate 127 0

/-- C6: the 1-bit mask decoder fails below 256 bytes; otherwise it
ignores the first 128 bytes and decodes bit `7 - x % 8` of mask byte
`y * 4 + x / 8` of the second 128 bytes into alpha 255/0; a mask whose
only set bit is the highest bit of byte 0 gives alpha 255 at (0,0) and
0 at (1..7, 0). -/
theorem mask_icn_spec :
    (∀ d : List Byte, d.length < 256 → extract_mask_from_icn d = none) ∧
    (∀ d : List Byte, 256 ≤ d.length →
      extract_mask_from_icn d ≠ none ∧
      (∀ p, extract_mask_from_icn d = some p →
        p.length = 32 ∧ ∀ r ∈ p, r.length = 32) ∧
      ∀ y x : Fin 32,
        planeAt (extract_mask_from_icn d) x.val y.val =
          if bitSet ((d.drop 128).getD (y.val * 4 + x.val / 8) 0).val
              (7 - x.val % 8) then 255 else 0) ∧
    (planeAt (extract_mask_from_icn highBitBuf) 0 0 = 255 ∧
      ∀ x : Fin 7, planeAt (extract_mask_from_icn highBitBuf) (x.val + 1) 0 = 0) := by
  refine ⟨?_, ?_, by decide⟩
  · intro d h
    simp only [extract_mask_from_icn, if_pos h]
  · intro d h
    have hn : ¬ d.length < 256 := Nat.not_lt.2 h
    refine ⟨?_, ?_, ?_⟩
    · simp only [extract_mask_from_icn, if_neg hn]
      exact Option.some_ne_none _
    · intro p hp
      simp only [extract_mask_from_icn, if_neg hn, Option.some.injEq] at hp
      subst hp
      constructor
      · simp
      · intro r hr
        obtain ⟨y, _, rfl⟩ := List.mem_map.1 hr
        simp
    · intro y x
      simp only [extract_mask_from_icn, if_neg hn, planeAt, Option.getD_some]
      rw [getD_range_map _ _ 32 y.val y.isLt, getD_range_map _ _ 32 x.val x.isLt]
      rw [getD_take _ _ 128 _ (by omega)]

theorem mask_icn_spec_witness :
    extract_mask_from_icn ([] : List Byte) = none ∧
    extract_mask_from_icn (List.replicate 256 (0 : Byte)) ≠ none :=
  ⟨mask_icn_spec.1 [] (by decide),
   (mask_icn_spec.2.1 (List.replicate 256 0) (by simp)).1⟩

/-- C5: the color decoder fails below 1024 bytes; above, it yields an
RGBA raster when a mask is supplied (per-pixel alpha from the plane)
and an RGB raster otherwise, each pixel being the palette entry at the
index byte `y * 32 + x`; decoding a solid buffer of value `i` with no
mask yields 32x32 copies of the palette's `i`-th triple. -/
theorem icl8_spec :
    (∀ (d : List Byte) (m : Option MaskPlane), d.length < 1024 →
      extract_icl8 d m = none) ∧
    (∀ (d : List Byte) (m : MaskPlane), 1024 ≤ d.length →
      isRGBA (extract_icl8 d (some m)) = true ∧
      (∀ rows, extract_icl8 d (some m) = some (IconImg.rgba rows) →
        rows.length = 32 ∧ ∀ r ∈ rows, r.length = 32) ∧
      ∀ y x : Fin 32,
        rgbaAt (extract_icl8 d (some m)) x.val y.val =
          (let p := PALETTE.getD (d.getD (y.val * 32 + x.val) 0).val (0, 0, 0)
           (p.1, p.2.1, p.2.2, (m.getD y.val []).getD x.val 0))) ∧
    (∀ d : List Byte, 1024 ≤ d.length →
      isRGB (extract_icl8 d none) = true ∧
      (∀ rows, extract_icl8 d none = some (IconImg.rgb rows) →
        rows.length = 32 ∧ ∀ r ∈ rows, r.length = 32) ∧
      ∀ y x : Fin 32,
        rgbAt (extract_icl8 d none) x.val y.val =
          PALETTE.getD (d.getD (y.val * 32 + x.val) 0).val (0, 0, 0)) ∧
    (∀ i : Byte, extract_icl8 (List.replicate 1024 i) none =
      some (IconImg.rgb
        (List.replicate 32 (List.replicate 32 (PALETTE.getD i.val (0, 0, 0)))))) := by
  refine ⟨?_, ?_, ?_, ?_⟩
  · intro d m h
    simp only [extract_icl8, if_pos h]
  · intro d m h
    have hn : ¬ d.length < 1024 := Nat.not_lt.2 h
    refine ⟨?_, ?_, ?_⟩
    · simp only [extract_icl8, if_neg hn, isRGBA]
    · intro rows hrows
      simp only [extract_icl8, if_neg hn, Option.some.injEq, IconImg.rgba.injEq] at hrows
      subst hrows
      constructor
      · simp
      · intro r hr
        obtain ⟨y, _, rfl⟩ := List.mem_map.1 hr
        simp
    · intro y x
      simp only [extract_icl8, if_neg hn, rgbaAt]
      rw [getD_range_map _ _ 32 y.val y.isLt, getD_range_map _ _ 32 x.val x.isLt]
  · intro d h
    have hn : ¬ d.length < 1024 := Nat.not_lt.2 h
    refine ⟨?_, ?_, ?_⟩
    · simp only [extract_icl8, if_neg hn, isRGB]
    · intro rows hrows
      simp only [extract_icl8, if_neg hn, Option.some.injEq, IconImg.rgb.injEq] at hrows
      subst hrows
      constructor
      · simp
      · intro r hr
        obtain ⟨y, _, rfl⟩ := List.mem_map.1 hr
        simp
    · intro y x
      simp only [extract_icl8, if_neg hn, rgbAt]
      rw [getD_range_map _ _ 32 y.val y.isLt, getD_range_map _ _ 32 x.val x.isLt]
  · intro i
    have hn : ¬ (List.replicate 1024 i).length < 1024 := by simp
    simp only [extract_icl8, if_neg hn]
    refine congrArg (fun rows => some (IconImg.rgb rows)) ?_
    refine List.eq_replicate_iff.2 ⟨by simp, ?_⟩
    intro row hrow
    obtain ⟨y, hy, rfl⟩ := List.mem_map.1 hrow
    refine List.eq_replicate_iff.2 ⟨by simp, ?_⟩
    intro px hpx
    obtain ⟨x, hx, rfl⟩ := List.mem_map.1 hpx
    have hy32 := List.mem_range.1 hy
    have hx32 := List.mem_range.1 hx
    rw [getD_replicate i (0 : Byte) 1024 (y * 32 + x) (by omega)]

theorem icl8_spec_witness :
    extract_icl8 ([] : List Byte) none = none ∧
    isRGB (extract_icl8 (List.replicate 1024 (0 : Byte)) none) = true ∧
    isRGBA (extract_icl8 (List.replicate 1024 (0 : Byte))
      (some (List.replicate 32 (List.replicate 32 7)))) = true :=
  ⟨icl8_spec.1 [] none (by decide),
   (icl8_spec.2.2.1 (List.replicate 1024 0) (by simp)).1,
   (icl8_spec.2.1 (List.replicate 1024 0) (List.replicate 32 (List.replicate 32 7))
     (by simp)).1⟩

/-- With at least 1024 input bytes the color decoder always produces a
raster, whatever the mask argument. -/
theorem extract_icl8_total (d : List Byte) (m : Option MaskPlane) (h : 1024 ≤ d.length) :
    ∃ img, extract_icl8 d m = some img := by
  have hn : ¬ d.length < 1024 := Nat.not_lt.2 h
  cases m with
  | none =>
      refine Option.ne_none_iff_exists'.1 ?_
      simp only [extract_icl8, if_neg hn]
      exact Option.some_ne_none _
  | some p =>
      refine Option.ne_none_iff_exists'.1 ?_
      simp only [extract_icl8, if_neg hn]
      exact Option.some_ne_none _

/-- C8: a container whose parsed elements include an `icl8` payload of
at least 1024 bytes always extracts to a raster; when an `l8mk` payload
of at least 1024 bytes is also present, its bytes are used directly,
row-major, as the per-pixel alpha plane (preferred over any `ICN#`
mask); without a sufficient `icl8` payload the container yields no
raster. -/
theorem icns_extract_spec :
    (∀ (data d : List Byte),
      dictGet icl8Type (parse_icns_container data) = some d → 1024 ≤ d.length →
      ∃ img, extract_from_icns data = some img) ∧
    (∀ (data d m : List Byte),
      dictGet icl8Type (parse_icns_container data) = some d → 1024 ≤ d.length →
      dictGet l8mkType (parse_icns_container data) = some m → 1024 ≤ m.length →
      extract_from_icns data = extract_icl8 d (some (l8mkPlane m))) ∧
    (∀ (m : List Byte) (y x : Fin 32),
      ((l8mkPlane m).getD y.val []).getD x.val 0 =
        (m.getD (y.val * 32 + x.val) 0).val) ∧
    (∀ data : List Byte,
      dictGet icl8Type (parse_icns_container data) = none →
      extract_from_icns data = none) ∧
    (∀ (data d : List Byte),
      dictGet icl8Type (parse_icns_container data) = some d → d.length < 1024 →
      extract_from_icns data = none) := by
  refine ⟨?_, ?_, ?_, ?_, ?_⟩
  · intro data d h1 h2
    have hn : ¬ d.length < 1024 := Nat.not_lt.2 h2
    simp only [extract_from_icns, h1, if_neg hn]
    exact extract_icl8_total d _ h2
  · intro data d m h1 h2 h3 h4
    have hn : ¬ d.length < 1024 := Nat.not_lt.2 h2
    simp only [extract_from_icns, h1, if_neg hn, h3, if_pos h4]
  · intro m y x
    unfold l8mkPlane
    rw [getD_range_map _ _ 32 y.val y.isLt, getD_range_map _ _ 32 x.val x.isLt]
  · intro data h1
    simp only [extract_from_icns, h1]
  · intro data d h1 h2
    simp only [extract_from_icns, h1, if_pos h2]

/-- A well-formed container: `icl8` element (1024 zero bytes) followed
by an `l8mk` element (1024 bytes of 7). -/
def cBuf : List Byte :=
  icl8Type ++ [0, 0, 4, 8] ++ List.replicate 1024 0 ++
  (l8mkType ++ ([0, 0, 4, 8] ++ List.replicate 1024 7))

theorem cBuf_length : cBuf.length = 2064 := by
  simp [cBuf, icl8Type, l8mkType]

theorem cBuf_startPos : startPos cBuf = 0 := by
  rw [startPos, if_neg]
  intro h
  exact absurd h.2 (by decide)

theorem cBuf_elemLen_0 : elemLen cBuf 0 = 1032 := by decide

theorem cBuf_elemLen_1032 : elemLen cBuf 1032 = 1032 := by decide

theorem cBuf_elemType_0 : elemType cBuf 0 = icl8Type := by decide

theorem cBuf_elemType_1032 : elemType cBuf 1032 = l8mkType := by decide

theorem cBuf_payload_0_length : (elemPayload cBuf 0).length = 1024 := by
  rw [elemPayload, cBuf_elemLen_0]
  simp [cBuf_length, List.length_take, List.length_drop, cBuf, icl8Type, l8mkType]

theorem cBuf_payload_1032_length : (elemPayload cBuf 1032).length = 1024 := by
  rw [elemPayload, cBuf_elemLen_1032]
  simp [List.length_take, List.length_drop, cBuf, icl8Type, l8mkType]

theorem cBuf_parse :
    parse_icns_container cBuf =
      [(elemType cBuf 1032, elemPayload cBuf 1032),
       (elemType cBuf 0, elemPayload cBuf 0)] := by
  have step0 : parseElemsAt cBuf 0 =
      (elemType cBuf 0, elemPayload cBuf 0) :: parseElemsAt cBuf 1032 := by
    rw [parseElemsAt_unfold, cBuf_elemLen_0, cBuf_length]
    norm_num
  have step1 : parseElemsAt cBuf 1032 =
      (elemType cBuf 1032, elemPayload cBuf 1032) :: parseElemsAt cBuf 2064 := by
    rw [parseElemsAt_unfold, cBuf_elemLen_1032, cBuf_length]
    norm_num
  have step2 : parseElemsAt cBuf 2064 = [] := by
    rw [parseElemsAt_unfold, cBuf_length]
    norm_num
  rw [parse_eq_reverse, cBuf_startPos, step0, step1, step2]
  simp

theorem dictGet_cons (t : List Byte) (e : List Byte × List Byte) (rest : Elements) :
    dictGet t (e :: rest) = if e.1 = t then some e.2 else dictGet t rest := rfl

theorem cBuf_dict_icl8 :
    dictGet icl8Type (parse_icns_container cBuf) = some (elemPayload cBuf 0) := by
  rw [cBuf_parse, cBuf_elemType_0, cBuf_elemType_1032, dictGet_cons, if_neg (by decide),
    dictGet_cons, if_pos rfl]

theorem cBuf_dict_l8mk :
    dictGet l8mkType (parse_icns_container cBuf) = some (elemPayload cBuf 1032) := by
  rw [cBuf_parse, cBuf_elemType_1032, dictGet_cons, if_pos rfl]

theorem icns_extract_spec_witness :
    (∃ img, extract_from_icns cBuf = some img) ∧
    extract_from_icns cBuf =
      extract_icl8 (elemPayload cBuf 0) (some (l8mkPlane (elemPayload cBuf 1032))) :=
  ⟨icns_extract_spec.1 cBuf (elemPayload cBuf 0) cBuf_dict_icl8
     (by rw [cBuf_payload_0_length]),
   icns_extract_spec.2.1 cBuf (elemPayload cBuf 0) (elemPayload cBuf 1032)
     cBuf_dict_icl8 (by rw [cBuf_payload_0_length]) cBuf_dict_l8mk
     (by rw [cBuf_payload_1032_length])⟩

/-! ## Claim C9 -/

/-- C9 counterexample: with an icon name that sanitizes to empty, the
flat pass substitutes the literal placeholder regardless of the
collection name (the collection is not even an input of the line-345
derivation), and the structured pass substitutes the collection name
with no placeholder even when that is empty — so "substitutes the
collection name, and a placeholder only if the collection is also
empty" fails in both directions. -/
theorem pass_naming_refuted :
    sanitize_name "!!!" = "" ∧
    passB_iconName "!!!" = "unnamed" ∧
    "unnamed" ≠ "Matrix" ∧
    passA_iconName "" "!!!" = "" := by decide

/-- C9 (amended): in Pass A an icon name that sanitizes to empty (or to
a generic placeholder `icon`/`icons`) is replaced by the collection
name, with no further fallback; in Pass B an icon name that sanitizes
to empty is replaced by the literal placeholder `unnamed`, never by the
collection name. -/
theorem pass_naming_spec :
    (∀ collection parent : String, sanitize_name parent = "" →
      passA_iconName collection parent = collection) ∧
    (∀ collection parent : String,
      lowerName (sanitize_name parent) = "icon" ∨ lowerName (sanitize_name parent) = "icons" →
      passA_iconName collection parent = collection) ∧
    (∀ collection parent : String, sanitize_name parent ≠ "" →
      lowerName (sanitize_name parent) ≠ "icon" → lowerName (sanitize_name parent) ≠ "icons" →
      passA_iconName collection parent = sanitize_name parent) ∧
    (∀ item : String, sanitize_name item = "" → passB_iconName item = "unnamed") ∧
    (∀ item : String, sanitize_name item ≠ "" → passB_iconName item = sanitize_name item) := by
  refine ⟨?_, ?_, ?_, ?_, ?_⟩
  · intro collection parent h
    simp only [passA_iconName]
    rw [if_pos (Or.inl h)]
  · intro collection parent h
    simp only [passA_iconName]
    rw [if_pos (Or.inr h)]
  · intro collection parent h1 h2 h3
    simp only [passA_iconName]
    rw [if_neg]
    push_neg
    exact ⟨h1, h2, h3⟩
  · intro item h
    simp only [passB_iconName]
    rw [if_pos h]
  · intro item h
    simp only [passB_iconName]
    rw [if_neg h]

theorem pass_naming_spec_witness :
    passA_iconName "Coll" "Icons" = "Coll" ∧
    passB_iconName "!!!" = "unnamed" ∧
    passB_iconName "Gear" = "Gear" :=
  ⟨pass_naming_spec.2.1 "Coll" "Icons" (by decide),
   pass_naming_spec.2.2.2.1 "!!!" (by decide),
   by rw [pass_naming_spec.2.2.2.2 "Gear" (by decide)]; decide⟩

/-! ## Sanitizer lemmas and claim C10 -/

theorem replacePairs_subset (a : Char) (l : List Char) : replacePairs a l ⊆ l := by
  induction l using replacePairs.induct a with
  | case1 => simp [replacePairs]
  | case2 x => simp [replacePairs]
  | case3 x y rest h ih =>
      simp only [replacePairs, if_pos h]
      intro c hc
      rcases List.mem_cons.1 hc with rfl | hc
      · rw [← h.1]
        exact List.mem_cons_self _ _
      · exact List.mem_cons_of_mem _ (List.mem_cons_of_mem _ (ih hc))
  | case4 x y rest h ih =>
      simp only [replacePairs, if_neg h]
      intro c hc
      rcases List.mem_cons.1 hc with rfl | hc
      · exact List.mem_cons_self _ _
      · exact List.mem_cons_of_mem _ (ih hc)

theorem replacePairs_length_le (a : Char) (l : List Char) :
    (replacePairs a l).length ≤ l.length := by
  induction l using replacePairs.induct a with
  | case1 => simp [replacePairs]
  | case2 x => simp [replacePairs]
  | case3 x y rest h ih =>
      simp only [replacePairs, if_pos h, List.length_cons]
      omega
  | case4 x y rest h ih =>
      simp only [replacePairs, if_neg h, List.length_cons]
      simp only [List.length_cons] at ih
      omega

theorem hasPair_cons_cons (a x y : Char) (rest : List Char) :
    hasPair a (x :: y :: rest) = ((x = a && y = a) || hasPair a (y :: rest)) := rfl

theorem replacePairs_length_lt (a : Char) (l : List Char) (h : hasPair a l = true) :
    (replacePairs a l).length < l.length := by
  induction l using replacePairs.induct a with
  | case1 => simp [hasPair] at h
  | case2 x => simp [hasPair] at h
  | case3 x y rest hc ih =>
      have := replacePairs_length_le a rest
      simp only [replacePairs, if_pos hc, List.length_cons]
      omega
  | case4 x y rest hc ih =>
      have hx : (x = a && y = a) = false := by
        rcases Bool.eq_false_or_eq_true (x = a && y = a) with hb | hb
        · simp only [Bool.and_eq_true, decide_eq_true_eq] at hb
          exact absurd hb hc
        · exact hb
      rw [hasPair_cons_cons, hx, Bool.false_or] at h
      have hlt := ih h
      simp only [replacePairs, if_neg hc, List.length_cons]
      simp only [List.length_cons] at hlt
      omega

theorem collapseF_subset (a : Char) : ∀ (fuel : Nat) (l : List Char),
    collapseF a fuel l ⊆ l := by
  intro fuel
  induction fuel with
  | zero => intro l; exact fun c hc => hc
  | succ fuel ih =>
      intro l
      simp only [collapseF]
      by_cases h : hasPair a l
      · rw [if_pos h]
        exact fun c hc => replacePairs_subset a l (ih (replacePairs a l) hc)
      · rw [if_neg h]
        exact fun c hc => hc

theorem collapseF_post (a : Char) : ∀ (fuel : Nat) (l : List Char),
    l.length ≤ fuel → hasPair a (collapseF a fuel l) = false := by
  intro fuel
  induction fuel with
  | zero =>
      intro l h
      have : l = [] := List.length_eq_zero.1 (by omega)
      subst this
      rfl
  | succ fuel ih =>
      intro l h
      simp only [collapseF]
      by_cases hp : hasPair a l
      · rw [if_pos hp]
        exact ih _ (by have := replacePairs_length_lt a l hp; omega)
      · rw [if_neg hp]
        rcases Bool.eq_false_or_eq_true (hasPair a l) with hb | hb
        · exact absurd hb hp
        · exact hb

theorem replacePairs_head (a z : Char) (t : List Char) :
    ∃ t2, replacePairs a (z :: t) = z :: t2 := by
  cases t with
  | nil => exact ⟨[], rfl⟩
  | cons w ws =>
      by_cases h : z = a ∧ w = a
      · obtain ⟨hz, hw⟩ := h
        refine ⟨replacePairs a ws, ?_⟩
        rw [hz, hw]
        simp [replacePairs]
      · exact ⟨replacePairs a (w :: ws), by simp only [replacePairs, if_neg h]⟩

theorem hasPair_cons_of (b c : Char) (t : List Char) (h1 : c ≠ b)
    (h2 : hasPair b t = false) : hasPair b (c :: t) = false := by
  cases t with
  | nil => rfl
  | cons z zs =>
      rw [hasPair_cons_cons, h2, Bool.or_false]
      simp [h1]

theorem hasPair_tail (b c : Char) (t : List Char) (h : hasPair b (c :: t) = false) :
    hasPair b t = false := by
  cases t with
  | nil => rfl
  | cons z zs =>
      rw [hasPair_cons_cons] at h
      exact (Bool.or_eq_false_iff.1 h).2

theorem replacePairs_keeps_noPair (a b : Char) (hba : b ≠ a) :
    ∀ l : List Char, hasPair b l = false → hasPair b (replacePairs a l) = false := by
  intro l
  induction l using replacePairs.induct a with
  | case1 => intro _; rfl
  | case2 x => intro _; rfl
  | case3 x y rest h ih =>
      intro h2
      simp only [replacePairs, if_pos h]
      exact hasPair_cons_of b a _ (Ne.symm hba)
        (ih (hasPair_tail b y rest (hasPair_tail b x (y :: rest) h2)))
  | case4 x y rest h ih =>
      intro h2
      have hrec := ih (hasPair_tail b x (y :: rest) h2)
      simp only [replacePairs, if_neg h]
      obtain ⟨t2, ht2⟩ := replacePairs_head a y rest
      rw [ht2] at hrec ⊢
      rw [hasPair_cons_cons] at h2 ⊢
      rw [hrec, Bool.or_false]
      exact (Bool.or_eq_false_iff.1 h2).1

theorem collapseF_keeps_noPair (a b : Char) (hba : b ≠ a) :
    ∀ (fuel : Nat) (l : List Char),
      hasPair b l = false → hasPair b (collapseF a fuel l) = false := by
  intro fuel
  induction fuel with
  | zero => intro l h; exact h
  | succ fuel ih =>
      intro l h
      simp only [collapseF]
      by_cases hp : hasPair a l
      · rw [if_pos hp]
        exact ih _ (replacePairs_keeps_noPair a b hba l h)
      · rw [if_neg hp]
        exact h

theorem hasPair_eq_true_iff (a : Char) :
    ∀ l : List Char, hasPair a l = true ↔ [a, a] <:+: l := by
  intro l
  induction l using hasPair.induct a with
  | case1 =>
      simp only [hasPair, List.infix_nil]
      constructor
      · intro h; cases h
      · intro h; cases h
  | case2 x =>
      simp only [hasPair]
      constructor
      · intro h; cases h
      · intro h
        have := h.length_le
        simp at this
  | case3 x y rest ih =>
      rw [hasPair_cons_cons]
      rw [List.infix_cons_iff]
      constructor
      · intro h
        rcases Bool.or_eq_true_iff.1 h with h1 | h1
        · obtain ⟨hx, hy⟩ := Bool.and_eq_true_iff.1 h1
          left
          rw [List.cons_prefix_cons]
          refine ⟨(of_decide_eq_true hx).symm, ?_⟩
          rw [List.cons_prefix_cons]
          exact ⟨(of_decide_eq_true hy).symm, List.nil_prefix⟩
        · exact Or.inr (ih.1 h1)
      · intro h
        rcases h with h1 | h1
        · rw [List.cons_prefix_cons] at h1
          obtain ⟨hx, h1⟩ := h1
          rw [List.cons_prefix_cons] at h1
          apply Bool.or_eq_true_iff.2
          left
          rw [Bool.and_eq_true_iff]
          exact ⟨decide_eq_true hx.symm, decide_eq_true h1.1.symm⟩
        · exact Bool.or_eq_true_iff.2 (Or.inr (ih.2 h1))

theorem hasPair_false_of_infix (a : Char) (s t : List Char) (hst : s <:+: t)
    (h : hasPair a t = false) : hasPair a s = false := by
  rcases Bool.eq_false_or_eq_true (hasPair a s) with hb | hb
  · have := (hasPair_eq_true_iff a t).2 (((hasPair_eq_true_iff a s).1 hb).trans hst)
    rw [this] at h
    cases h
  · exact hb

theorem rev_suffix_to_prefix (u v : List Char) (h : u <:+ v.reverse) :
    u.reverse <+: v := by
  rw [← List.reverse_reverse u] at h
  exact List.reverse_suffix.1 h

theorem stripEnds_infix (l : List Char) : stripEnds l <:+: l := by
  have h1 : l.dropWhile stripChar <:+ l := List.dropWhile_suffix _
  have h2 : (l.dropWhile stripChar).reverse.dropWhile stripChar <:+
      (l.dropWhile stripChar).reverse := List.dropWhile_suffix _
  have h3 := rev_suffix_to_prefix _ _ h2
  exact h3.isInfix.trans h1.isInfix

theorem dropWhile_head_not (p : Char → Bool) :
    ∀ (l : List Char) (c : Char), (l.dropWhile p).head? = some c → p c = false := by
  intro l
  induction l with
  | nil => intro c h; cases h
  | cons x xs ih =>
      intro c h
      rw [List.dropWhile_cons] at h
      by_cases hx : p x
      · rw [if_pos hx] at h
        exact ih c h
      · rw [if_neg hx] at h
        have hxc : x = c := by simpa using h
        subst hxc
        rcases Bool.eq_false_or_eq_true (p x) with hb | hb
        · exact absurd hb hx
        · exact hb

theorem suffix_getLast? (s t : List Char) (h : s <:+ t) (hne : s ≠ []) :
    s.getLast? = t.getLast? := by
  obtain ⟨u, rfl⟩ := h
  exact (List.getLast?_append_of_ne_nil u hne).symm

theorem stripEnds_head_not (l : List Char) (c : Char)
    (h : (stripEnds l).head? = some c) : stripChar c = false := by
  unfold stripEnds at h
  rw [List.head?_reverse] at h
  have hne : (l.dropWhile stripChar).reverse.dropWhile stripChar ≠ [] := by
    intro he
    rw [he] at h
    cases h
  rw [suffix_getLast? _ _ (List.dropWhile_suffix _) hne, List.getLast?_reverse] at h
  exact dropWhile_head_not stripChar _ c h

theorem stripEnds_getLast_not (l : List Char) (c : Char)
    (h : (stripEnds l).getLast? = some c) : stripChar c = false := by
  unfold stripEnds at h
  rw [List.getLast?_reverse] at h
  exact dropWhile_head_not stripChar _ c h

theorem mapPass_all (l : List Char) : (mapPass l).all keepChar = true := by
  rw [List.all_eq_true]
  intro c hc
  obtain ⟨x, _, rfl⟩ := List.mem_map.1 hc
  by_cases hx : keepChar x
  · rw [if_pos hx]
    exact hx
  · rw [if_neg hx]
    decide

theorem all_of_subset (p : Char → Bool) (s l : List Char) (hs : s ⊆ l)
    (h : l.all p = true) : s.all p = true := by
  rw [List.all_eq_true] at h ⊢
  exact fun c hc => h c (hs hc)

/-- C10: every character of a sanitized name is alphanumeric or one of
`-`, `_`, space (`keepChar` is exactly that predicate); the output
contains no doubled dash and no doubled space, and neither begins nor
ends with a dash or a space — hence the `--` delimiter of
`{collection}--{icon}.png` cannot occur inside either sanitized
component. -/
theorem sanitize_invariants (s : String) :
    (sanitize_name s).data.all keepChar = true ∧
    hasPair '-' (sanitize_name s).data = false ∧
    hasPair ' ' (sanitize_name s).data = false ∧
    (sanitize_name s).data.head? ≠ some '-' ∧
    (sanitize_name s).data.head? ≠ some ' ' ∧
    (sanitize_name s).data.getLast? ≠ some '-' ∧
    (sanitize_name s).data.getLast? ≠ some ' ' := by
  have hdata : (sanitize_name s).data = sanitizeList s.data := rfl
  rw [hdata]
  unfold sanitizeList
  set s0 := mapPass s.data with hs0
  set s1 := collapseF '-' s0.length s0 with hs1
  set s2 := collapseF ' ' s1.length s1 with hs2
  have hsub1 : s1 ⊆ s0 := collapseF_subset '-' s0.length s0
  have hsub2 : s2 ⊆ s1 := collapseF_subset ' ' s1.length s1
  have hinf : stripEnds s2 <:+: s2 := stripEnds_infix s2
  have hdash1 : hasPair '-' s1 = false := collapseF_post '-' s0.length s0 le_rfl
  have hdash2 : hasPair '-' s2 = false :=
    collapseF_keeps_noPair ' ' '-' (by decide) s1.length s1 hdash1
  have hspace2 : hasPair ' ' s2 = false := collapseF_post ' ' s1.length s1 le_rfl
  refine ⟨?_, ?_, ?_, ?_, ?_, ?_, ?_⟩
  · exact all_of_subset keepChar _ s0 (fun c hc => hsub1 (hsub2 (hinf.subset hc)))
      (mapPass_all s.data)
  · exact hasPair_false_of_infix '-' _ s2 hinf hdash2
  · exact hasPair_false_of_infix ' ' _ s2 hinf hspace2
  · intro h
    have := stripEnds_head_not s2 '-' h
    exact absurd this (by decide)
  · intro h
    have := stripEnds_head_not s2 ' ' h
    exact absurd this (by decide)
  · intro h
    have := stripEnds_getLast_not s2 '-' h
    exact absurd this (by decide)
  · intro h
    have := stripEnds_getLast_not s2 ' ' h
    exact absurd this (by decide)

theorem sanitize_invariants_witness :
    (sanitize_name "a!! b--c ").data.all keepChar = true ∧
    hasPair '-' (sanitize_name "a!! b--c ").data = false ∧
    hasPair ' ' (sanitize_name "a!! b--c ").data = false ∧
    (sanitize_name "a!! b--c ").data.head? ≠ some '-' ∧
    (sanitize_name "a!! b--c ").data.head? ≠ some ' ' ∧
    (sanitize_name "a!! b--c ").data.getLast? ≠ some '-' ∧
    (sanitize_name "a!! b--c ").data.getLast? ≠ some ' ' :=
  sanitize_invariants "a!! b--c "

/-! ## Decimal rendering: `Nat.repr` is injective

Needed for claim C2: the suffix search of `extract_all` terminates on a
fresh name only because distinct suffix indices render to distinct
filename strings. -/

/-- Value of a decimal digit character. -/
def charVal (c : Char) : Nat := c.toNat - 48

/-- Most-significant-first decimal digits of `n`, by plain recursion. -/
def decDigits (n : Nat) : List Char :=
  if _h : n < 10 then [Nat.digitChar n]
  else decDigits (n / 10) ++ [Nat.digitChar (n % 10)]
termination_by n
decreasing_by exact Nat.div_lt_self (by omega) (by omega)

theorem toDigitsCore_append (f : Nat) : ∀ (n : Nat) (acc : List Char),
    Nat.toDigitsCore 10 f n acc = Nat.toDigitsCore 10 f n [] ++ acc := by
  induction f with
  | zero => intro n acc; rfl
  | succ f ih =>
      intro n acc
      simp only [Nat.toDigitsCore]
      by_cases h : n / 10 = 0
      · rw [if_pos h, if_pos h]
        rfl
      · rw [if_neg h, if_neg h, ih (n / 10) (Nat.digitChar (n % 10) :: acc),
          ih (n / 10) [Nat.digitChar (n % 10)], List.append_assoc]
        rfl

theorem decDigits_lt (n : Nat) (h : n < 10) : decDigits n = [Nat.digitChar n] := by
  conv_lhs => rw [decDigits]
  rw [dif_pos h]

theorem decDigits_ge (n : Nat) (h : ¬ n < 10) :
    decDigits n = decDigits (n / 10) ++ [Nat.digitChar (n % 10)] := by
  conv_lhs => rw [decDigits]
  rw [dif_neg h]

theorem toDigitsCore_eq_decDigits : ∀ (f n : Nat), n < f →
    Nat.toDigitsCore 10 f n [] = decDigits n := by
  intro f
  induction f with
  | zero => intro n h; omega
  | succ f ih =>
      intro n h
      simp only [Nat.toDigitsCore]
      by_cases h0 : n / 10 = 0
      · rw [if_pos h0]
        have hn10 : n < 10 := by omega
        rw [decDigits_lt n hn10, Nat.mod_eq_of_lt hn10]
      · rw [if_neg h0, toDigitsCore_append, ih (n / 10) (by omega),
          decDigits_ge n (by omega)]

theorem charVal_digitChar_fin : ∀ d : Fin 10, charVal (Nat.digitChar d.val) = d.val := by
  decide

theorem charVal_digitChar (d : Nat) (h : d < 10) : charVal (Nat.digitChar d) = d :=
  charVal_digitChar_fin ⟨d, h⟩

/-- Value of a most-significant-first decimal digit string. -/
def decVal (l : List Char) : Nat :=
  l.foldl (fun acc c => acc * 10 + charVal c) 0

theorem decVal_decDigits : ∀ n : Nat, decVal (decDigits n) = n := by
  intro n
  induction n using Nat.strong_induction_on with
  | _ n ih =>
      by_cases h : n < 10
      · rw [decDigits_lt n h]
        simp [decVal, charVal_digitChar n h]
      · rw [decDigits_ge n h]
        unfold decVal
        rw [List.foldl_append]
        have hv : (decDigits (n / 10)).foldl (fun acc c => acc * 10 + charVal c) 0 =
            n / 10 := ih (n / 10) (Nat.div_lt_self (by omega) (by omega))
        rw [hv]
        simp only [List.foldl_cons, List.foldl_nil]
        rw [charVal_digitChar (n % 10) (by omega)]
        omega

theorem nat_repr_inj (m n : Nat) (h : Nat.repr m = Nat.repr n) : m = n := by
  have hd : Nat.toDigits 10 m = Nat.toDigits 10 n := congrArg String.data h
  rw [Nat.toDigits, Nat.toDigits, toDigitsCore_eq_decDigits (m + 1) m (by omega),
    toDigitsCore_eq_decDigits (n + 1) n (by omega)] at hd
  have := congrArg decVal hd
  rwa [decVal_decDigits, decVal_decDigits] at this

/-! ## Claim C2 -/

theorem suffixName_inj (c n : String) (i j : Nat)
    (h : suffixName c n i = suffixName c n j) : i = j := by
  unfold suffixName at h
  have hd := congrArg String.data h
  simp only [String.data_append] at hd
  have h2 := List.append_cancel_right hd
  have h3 := List.append_cancel_left h2
  exact nat_repr_inj i j (String.ext h3)

theorem exists_free_suffix (existing : List String) (c n : String) :
    ∃ j, j < existing.length + 1 ∧ suffixName c n (1 + j) ∉ existing := by
  by_contra hall
  push_neg at hall
  have hinj : Set.InjOn (fun j => suffixName c n (1 + j))
      ↑(Finset.range (existing.length + 1)) := by
    intro a _ b _ hab
    have := suffixName_inj c n (1 + a) (1 + b) hab
    omega
  have hmaps : ∀ j ∈ Finset.range (existing.length + 1),
      suffixName c n (1 + j) ∈ existing.toFinset := by
    intro j hj
    rw [List.mem_toFinset]
    exact hall j (Finset.mem_range.1 hj)
  have hcard := Finset.card_le_card_of_injOn _ hmaps hinj
  rw [Finset.card_range] at hcard
  have := existing.toFinset_card_le
  omega

theorem suffixSearch_spec (existing : List String) (c n : String) :
    ∀ (fuel i : Nat), (∃ j, j < fuel ∧ suffixName c n (i + j) ∉ existing) →
      ∃ j, j < fuel ∧ suffixSearch existing c n i fuel = suffixName c n (i + j) ∧
        suffixName c n (i + j) ∉ existing ∧
        ∀ k, k < j → suffixName c n (i + k) ∈ existing := by
  intro fuel
  induction fuel with
  | zero =>
      intro i h
      obtain ⟨j, hj, _⟩ := h
      omega
  | succ fuel ih =>
      intro i h
      by_cases hi : suffixName c n i ∈ existing
      · have h' : ∃ j, j < fuel ∧ suffixName c n ((i + 1) + j) ∉ existing := by
          obtain ⟨j, hj, hnot⟩ := h
          cases j with
          | zero =>
              rw [Nat.add_zero] at hnot
              exact absurd hi hnot
          | succ j' =>
              refine ⟨j', by omega, ?_⟩
              have harith : i + (j' + 1) = (i + 1) + j' := by omega
              rwa [harith] at hnot
        obtain ⟨j, hj, heq, hnot, hall⟩ := ih (i + 1) h'
        refine ⟨j + 1, by omega, ?_, ?_, ?_⟩
        · simp only [suffixSearch, if_pos hi]
          rw [heq]
          have harith : (i + 1) + j = i + (j + 1) := by omega
          rw [harith]
        · have harith : i + (j + 1) = (i + 1) + j := by omega
          rw [harith]
          exact hnot
        · intro k hk
          cases k with
          | zero =>
              rw [Nat.add_zero]
              exact hi
          | succ k' =>
              have harith : i + (k' + 1) = (i + 1) + k' := by omega
              rw [harith]
              exact hall k' (by omega)
      · refine ⟨0, by omega, ?_, ?_, ?_⟩
        · simp only [suffixSearch, if_neg hi]
          rw [Nat.add_zero]
        · rw [Nat.add_zero]
          exact hi
        · intro k hk
          omega

/-- C2: the destination name starts as `{collection}--{icon}.png`; if
that exists in the directory the resolver returns the first free
`{collection}--{icon}-{i}.png` for i = 1, 2, ..., so the returned name
never collides with an existing file (no overwrite) and each written
name is new to its directory (uniqueness). -/
theorem resolve_dest_spec (existing : List String) (c n : String) :
    resolve_dest existing c n ∉ existing ∧
    (baseName c n ∉ existing → resolve_dest existing c n = baseName c n) ∧
    (baseName c n ∈ existing →
      ∃ i, 1 ≤ i ∧ resolve_dest existing c n = suffixName c n i ∧
        suffixName c n i ∉ existing ∧
        ∀ k, 1 ≤ k → k < i → suffixName c n k ∈ existing) := by
  by_cases hb : baseName c n ∈ existing
  · obtain ⟨j0, hj0, hnot0⟩ := exists_free_suffix existing c n
    obtain ⟨j, hj, heq, hnot, hall⟩ :=
      suffixSearch_spec existing c n (existing.length + 1) 1 ⟨j0, hj0, hnot0⟩
    have hres : resolve_dest existing c n = suffixName c n (1 + j) := by
      unfold resolve_dest
      rw [if_pos hb]
      exact heq
    refine ⟨?_, ?_, ?_⟩
    · rw [hres]
      exact hnot
    · intro hnb
      exact absurd hb hnb
    · intro _
      refine ⟨1 + j, by omega, hres, hnot, ?_⟩
      intro k h1k hkj
      have harith : k = 1 + (k - 1) := by omega
      rw [harith]
      exact hall (k - 1) (by omega)
  · refine ⟨?_, ?_, ?_⟩
    · unfold resolve_dest
      rw [if_neg hb]
      exact hb
    · intro _
      unfold resolve_dest
      rw [if_neg hb]
    · intro hmem
      exact absurd hmem hb

theorem resolve_dest_spec_witness :
    resolve_dest ["a--b.png"] "a" "b" ∉ ["a--b.png"] ∧
    (∃ i, 1 ≤ i ∧ resolve_dest ["a--b.png"] "a" "b" = suffixName "a" "b" i ∧
      suffixName "a" "b" i ∉ ["a--b.png"] ∧
      ∀ k, 1 ≤ k → k < i → suffixName "a" "b" k ∈ ["a--b.png"]) ∧
    resolve_dest [] "a" "b" = baseName "a" "b" :=
  ⟨(resolve_dest_spec ["a--b.png"] "a" "b").1,
   (resolve_dest_spec ["a--b.png"] "a" "b").2.2 (by decide),
   (resolve_dest_spec [] "a" "b").2.1 (by decide)⟩

end IconArchaeology
